import Mathlib

/-!
Verification of the entity-resolution core of the Fortune-100 SEC data
scripts (`bootstrap_sec_data.py`, `daily_update_sec_data.py`).

The Python code is shallowly embedded: strings are `List Char`/`String`
over ASCII (Python's `re` and `str` methods are Unicode-aware, but every
construct used by the scripts — `\b`, `\w`, `[^a-z0-9 ]`, `.lower()`,
`.split()` — is modelled on its ASCII behaviour, which is all the data
model exercises), Python dicts are association lists in insertion order,
`rapidfuzz` similarity scores are exact rationals (the float the library
computes can only disagree with the exact value on the `>= 85` test if the
exact value is within one part in `len1+len2` of 85, which forces exact
equality, in which case the float division is exact as well), and a
function that can raise is given an explicit result constructor.
-/

/-! ## Character classes (ASCII models of Python's `\w`, `\s`, `[a-z0-9 ]`) -/

/-- ASCII word character, modelling Python's `\w` for the `\b` boundaries of
`re.sub(r'\b(...)\b', ...)` in `normalize_name`. -/
def isWordChar (c : Char) : Bool :=
  (97 ≤ c.toNat && c.toNat ≤ 122) || (65 ≤ c.toNat && c.toNat ≤ 90) ||
    (48 ≤ c.toNat && c.toNat ≤ 57) || c.toNat == 95

/-- ASCII whitespace, modelling the separators of Python's `str.split()`. -/
def isWsChar (c : Char) : Bool :=
  c.toNat == 32 || c.toNat == 9 || c.toNat == 10 ||
    c.toNat == 13 || c.toNat == 12 || c.toNat == 11

/-- Characters kept by `re.sub(r'[^a-z0-9 ]', '', name.lower())`. -/
def allowedChar (c : Char) : Bool :=
  (97 ≤ c.toNat && c.toNat ≤ 122) || (48 ≤ c.toNat && c.toNat ≤ 57) ||
    c.toNat == 32

/-- ASCII lower-casing, modelling Python's `str.lower()` on the ASCII range. -/
def lowerChar (c : Char) : Char :=
  if 65 ≤ c.toNat ∧ c.toNat ≤ 90 then Char.ofNat (c.toNat + 32) else c

/-! ## Suffix-token removal: `re.sub(r'\b(incorporated|...)\b', '', name, flags=re.I)`

Python's `re.sub` scans left to right; at each position it tries the
alternatives in order, a match needing a word boundary before and after.
Since every alternative consists of word characters, a match can only start
where the previous character is a non-word character (or at the string
start) and only end where the next character is a non-word character (or at
the string end).  The scan resumes right after each removed match, and the
`\b` context is the original string, so the scanner carries the class of
the previous (original) character. -/

/-- The alternation of `normalize_name`'s suffix regex, in source order. -/
def suffixToks : List (List Char) :=
  ["incorporated", "inc", "corp", "corporation", "llc", "ltd", "plc",
   "group", "company"].map String.toList

/-- Case-insensitive (ASCII) match of `tok` against a prefix of `s`;
returns the rest of `s` on success. -/
def dropTokCI : List Char → List Char → Option (List Char)
  | [], s => some s
  | _ :: _, [] => none
  | t :: ts, c :: cs => if lowerChar t == lowerChar c then dropTokCI ts cs else none

/-- Does the trailing `\b` of the regex match in front of `s`? -/
def endBoundary : List Char → Bool
  | [] => true
  | c :: _ => !(isWordChar c)

/-- Try the regex alternatives in order at the current position (which is
already known to be a word boundary); each needs `endBoundary` after it,
else the engine backtracks to the next alternative. -/
def tryToks : List (List Char) → List Char → Option (List Char)
  | [], _ => none
  | t :: ts, s =>
    match dropTokCI t s with
    | some rest => if endBoundary rest then some rest else tryToks ts s
    | none => tryToks ts s

/-- The `re.sub` scan, structurally recursive on a fuel that bounds the
length of the remaining input (every step consumes at least one
character). `prevWord` is whether the previous character of the original
string is a word character (false at the string start). -/
def removeScanF : Nat → Bool → List Char → List Char
  | 0, _, _ => []
  | _ + 1, _, [] => []
  | fuel + 1, prevWord, c :: rest =>
    if prevWord then c :: removeScanF fuel (isWordChar c) rest
    else
      match tryToks suffixToks (c :: rest) with
      | some rest' => removeScanF fuel true rest'
      | none => c :: removeScanF fuel (isWordChar c) rest

/-- Whole-word, case-insensitive removal of the corporate-suffix tokens:
the first `re.sub` of `normalize_name`. -/
def removeToks (s : List Char) : List Char :=
  removeScanF s.length false s

/-! ## Whitespace splitting and joining: `' '.join(name.split())` -/

/-- Split at every whitespace character, keeping empty segments
(so `splitAll` of `l` always has one more segment than `l` has whitespace
characters; in particular it is never `[]`). -/
def splitAll : List Char → List (List Char)
  | [] => [[]]
  | c :: rest =>
    if isWsChar c then [] :: splitAll rest
    else
      match splitAll rest with
      | [] => [[c]]
      | g :: gs => (c :: g) :: gs

/-- Python's `str.split()`: maximal non-whitespace runs, empties dropped. -/
def pySplit (l : List Char) : List (List Char) :=
  (splitAll l).filter (fun w => !w.isEmpty)

/-- Python's `' '.join(ws)`. -/
def pyJoin : List (List Char) → List Char
  | [] => []
  | [w] => w
  | w :: ws => w ++ ' ' :: pyJoin ws

/-! ## The normalizer (`normalize_name`, bootstrap_sec_data.py lines 37–45) -/

/-- `normalize_name` from `bootstrap_sec_data.py`:
suffix removal, then `.lower()`, then `re.sub(r'[^a-z0-9 ]', '', ·)`,
then `' '.join(·.split())`. -/
def normalize_name (s : String) : String :=
  let a := removeToks s.toList
  let b := (a.map lowerChar).filter allowedChar
  String.mk (pyJoin (pySplit b))

/-! ## The spec's reference pipeline (§4.1)

Steps (a)–(c) of the spec read off the same operations as the source; step
(d) is worded as "collapse runs of whitespace to single spaces and trim
leading/trailing whitespace", which we formalise literally (a collapse
pass followed by trimming), to be proved equal to the source's
`' '.join(name.split())`. -/

/-- Collapse every run of whitespace to a single space. -/
def collapseWs : List Char → List Char
  | [] => []
  | [c] => if isWsChar c then [' '] else [c]
  | a :: b :: rest =>
    if isWsChar a && isWsChar b then collapseWs (b :: rest)
    else (if isWsChar a then ' ' else a) :: collapseWs (b :: rest)

/-- Remove trailing whitespace. -/
def trimEndWs : List Char → List Char
  | [] => []
  | c :: rest =>
    match trimEndWs rest with
    | [] => if isWsChar c then [] else [c]
    | out => c :: out

/-- Remove leading and trailing whitespace. -/
def trimWs (l : List Char) : List Char :=
  trimEndWs (l.dropWhile isWsChar)

/-- The spec's §4.1 pipeline: (a) whole-word suffix-token removal,
(b) lowercase, (c) strip characters outside `[a-z0-9 ]`,
(d) collapse whitespace runs to single spaces and trim. -/
def specNormalize (s : String) : String :=
  let a := removeToks s.toList
  let b := (a.map lowerChar).filter allowedChar
  String.mk (trimWs (collapseWs b))

/-! ## A canonical form for step (d)

`canon` walks the list dropping leading whitespace, copying word
characters, and emitting a single separating space before each further
word; both `' '.join(l.split())` and `trim(collapse(l))` equal `canon l`. -/

mutual

/-- Between words: whitespace is dropped. -/
def canon : List Char → List Char
  | [] => []
  | c :: rest => if isWsChar c then canon rest else c :: canonWord rest

/-- Inside a word: a whitespace run becomes one space if another word
follows, nothing otherwise. -/
def canonWord : List Char → List Char
  | [] => []
  | c :: rest =>
    if isWsChar c then
      match canon rest with
      | [] => []
      | out => ' ' :: out
    else c :: canonWord rest

end

/-! ## `rapidfuzz` similarity: `fuzz.token_sort_ratio`

`fuzz.ratio` is the normalized InDel similarity scaled to 0–100:
`100 * (1 - dist/(len1+len2))` with `dist = len1 + len2 - 2*lcs`, i.e.
`200 * lcs / (len1 + len2)` (and 100 when both strings are empty).
`token_sort_ratio` applies it to the whitespace-split, lexicographically
sorted, space-rejoined forms of the two inputs. Scores are modelled as
exact rationals. -/

/-- Longest-common-subsequence length, with a structural fuel bounding the
total length of the two lists. -/
def lcsF : Nat → List Char → List Char → Nat
  | 0, _, _ => 0
  | _ + 1, [], _ => 0
  | _ + 1, _ :: _, [] => 0
  | fuel + 1, a :: as, b :: bs =>
    if a == b then 1 + lcsF fuel as bs
    else max (lcsF fuel (a :: as) bs) (lcsF fuel as (b :: bs))

/-- Longest-common-subsequence length of two character lists. -/
def lcsLen (a b : List Char) : Nat :=
  lcsF (a.length + b.length) a b

/-- `fuzz.ratio` as an exact rational in `[0, 100]`:
`200 * lcs / (len1 + len2)` (and 100 when both strings are empty). -/
def indelScore (a b : List Char) : ℚ :=
  if a.length + b.length = 0 then 100
  else mkRat (200 * (lcsLen a b : Int)) (a.length + b.length)

/-- Lexicographic comparison of character lists by code point, modelling
how Python's `sorted` orders strings. -/
def lexLe : List Char → List Char → Bool
  | [], _ => true
  | _ :: _, [] => false
  | a :: as, b :: bs => if a == b then lexLe as bs else decide (a.toNat < b.toNat)

/-- Insert into a `lexLe`-sorted list of tokens. -/
def insertTok (w : List Char) : List (List Char) → List (List Char)
  | [] => [w]
  | x :: xs => if lexLe x w then x :: insertTok w xs else w :: x :: xs

/-- Insertion sort of tokens (Python's `sorted`; stability is irrelevant
because equal tokens are identical lists). -/
def sortToks : List (List Char) → List (List Char)
  | [] => []
  | w :: ws => insertTok w (sortToks ws)

/-- `" ".join(sorted(s.split()))`, the preprocessing of `token_sort_ratio`. -/
def tokenSortPrep (s : String) : List Char :=
  pyJoin (sortToks (pySplit s.toList))

/-- `fuzz.token_sort_ratio` as an exact rational. -/
def tokenSortScore (a b : String) : ℚ :=
  indelScore (tokenSortPrep a) (tokenSortPrep b)

/-! ## `process.extractOne`

With the default `score_cutoff`, `rapidfuzz.process.extractOne` scans the
choices keeping the current best and replacing it only on a strictly
greater score, so the first of several tied maxima wins; on a list it
returns `(choice, score, index)`, and `None` for an empty choices list. -/

/-- The scan of `extractOne`: `acc` is the current `(choice, score, index)`
triple and `i` the index of the head of the remaining list. -/
def pickBest (f : α → ℚ) (acc : α × ℚ × Nat) (i : Nat) : List α → α × ℚ × Nat
  | [] => acc
  | x :: xs =>
    if acc.2.1 < f x then pickBest f (x, f x, i) (i + 1) xs
    else pickBest f acc (i + 1) xs

/-- `process.extractOne(query, choices, scorer=f)` with the scorer applied
to each choice. -/
def extractOne (f : α → ℚ) : List α → Option (α × ℚ × Nat)
  | [] => none
  | x :: xs => some (pickBest f (x, f x, 0) 1 xs)

/-! ## The registry and the resolvers -/

/-- One value of the SEC `company_tickers.json` mapping (the `ticker`
field is never read by the scripts and is omitted). -/
structure Entry where
  title : String
  cik_str : Nat
  deriving DecidableEq

/-- A Python dict as the scripts see it: association list in insertion
(= iteration) order; real dicts have pairwise-distinct keys. -/
abbrev Registry := List (String × Entry)

/-- Outcome of a resolution call: a returned CIK string, the
`ValueError("CIK not found (best fuzzy score ...)")` carrying the best
score, or an unhandled exception (`TypeError` from unpacking `None`,
`KeyError`/`IndexError` from a failed lookup). -/
inductive RRes where
  | found : String → RRes
  | notFound : ℚ → RRes
  | crash : RRes
  deriving DecidableEq

/-- `str(n).zfill(10)`. -/
def zfill10 (n : Nat) : String :=
  let s := toString n
  String.mk (List.replicate (10 - s.length) '0' ++ s.toList)

/-- Is `n` a prefix of `h`? -/
def isPrefOf : List Char → List Char → Bool
  | [], _ => true
  | _ :: _, [] => false
  | a :: as, b :: bs => a == b && isPrefOf as bs

/-- Python's `n in h` for strings: contiguous-substring containment. -/
def isSubOf : List Char → List Char → Bool
  | n, [] => n.isEmpty
  | n, c :: t => isPrefOf n (c :: t) || isSubOf n t

/-- `get_cik` from `bootstrap_sec_data.py` (lines 54–81). `extractOne`
runs on the list of normalized titles and yields a list index, which the
source then uses as a dict key via `mapping[str(key)]` — a lookup that
only succeeds when the registry is keyed `"0", "1", ...` in iteration
order, as the SEC ticker file is; on any other key shape that line raises
`KeyError`. On an empty registry `extractOne` returns `None` and the
triple unpacking raises `TypeError`. -/
def get_cik (company_name : String) (mapping : Registry) : RRes :=
  let target := normalize_name company_name
  let choices := mapping.map (fun kv => normalize_name kv.2.title)
  match extractOne (fun c => tokenSortScore target c) choices with
  | none => RRes.crash
  | some (_, score, key) =>
    if 85 ≤ score then
      match mapping.find? (fun kv => kv.1 == toString key) with
      | some kv => RRes.found (zfill10 kv.2.cik_str)
      | none => RRes.crash
    else
      match mapping.find? (fun kv => isSubOf target.toList (normalize_name kv.2.title).toList) with
      | some kv => RRes.found (zfill10 kv.2.cik_str)
      | none => RRes.notFound score

/-- Python's `str.lower()` on the ASCII range. -/
def lowerStr (s : String) : String :=
  String.mk (s.toList.map lowerChar)

/-- `get_cik` from `daily_update_sec_data.py` (lines 13–36). The source
fetches the registry itself; the fetched mapping is passed here as an
argument. Exact raw-title match first (case-insensitive), then a fuzzy
pass over the raw (unnormalized) titles; no substring fallback. The
`[v for v in mapping.values() if v["title"] == best][0]` lookup would
raise `IndexError` were it empty (it cannot be: `best` is one of the
titles). -/
def get_cik_daily (ticker_or_name : String) (mapping : Registry) : RRes :=
  match mapping.find? (fun kv => lowerStr kv.2.title == lowerStr ticker_or_name) with
  | some kv => RRes.found (zfill10 kv.2.cik_str)
  | none =>
    let titles := mapping.map (fun kv => kv.2.title)
    match extractOne (fun t => tokenSortScore ticker_or_name t) titles with
    | none => RRes.crash
    | some (best, score, _) =>
      if 85 ≤ score then
        match mapping.find? (fun kv => kv.2.title == best) with
        | some kv => RRes.found (zfill10 kv.2.cik_str)
        | none => RRes.crash
      else RRes.notFound score

/-! ## Financial facts (`extract_facts`, `latest_years`) and the merge -/

/-- One dated observation of the SEC facts payload; `endDate` models the
JSON field `"end"` (a reserved word in Lean). -/
structure FactItem where
  endDate : String
  val : Int
  deriving DecidableEq

/-- One `us-gaap` concept: its `"units"` object, currency → items. -/
structure FactConcept where
  units : List (String × List FactItem)
  deriving DecidableEq

/-- The `facts["us-gaap"]` object: concept name → concept. -/
abbrev Facts := List (String × FactConcept)

/-- First-match association-list lookup (Python dict subscript/`.get`;
real dicts have unique keys, so first match is the match). -/
def lookupA (l : List (String × α)) (k : String) : Option α :=
  (l.find? (fun kv => kv.1 == k)).map Prod.snd

/-- `int(i["end"][:4])`: the decimal value of the first four characters,
for a well-formed date string (Python raises `ValueError` on a
non-numeric prefix; no claim exercises that case and every concrete input
here is digit-led). -/
def yearOf (d : String) : Nat :=
  (d.toList.take 4).foldl (fun a c => a * 10 + (c.toNat - 48)) 0

/-- A stored `{"year": ..., "val": ...}` observation. -/
structure Obs where
  year : Nat
  val : Int
  deriving DecidableEq

/-- `facts.get(name, {}).get("units", {}).get("USD", [])`. -/
def usdItems (facts : Facts) (name : String) : List FactItem :=
  match lookupA facts name with
  | none => []
  | some c => (lookupA c.units "USD").getD []

/-- The `pick` closure of `extract_facts` (bootstrap, lines 89–92):
keep items with `int(i["end"][:4]) >= cutoff`. -/
def pickBoot (facts : Facts) (cutoff : Int) (name : String) : List Obs :=
  ((usdItems facts name).filter (fun i => cutoff ≤ (yearOf i.endDate : Int))).map
    (fun i => Obs.mk (yearOf i.endDate) i.val)

/-- `extract_facts` (bootstrap, lines 83–100), with `datetime.date.today().year`
passed in as `todayYear`; `cutoff = todayYear - 5`. -/
def extract_facts (todayYear : Int) (facts : Facts) : List (String × List Obs) :=
  let cutoff := todayYear - 5
  [("Revenue", pickBoot facts cutoff "Revenues"),
   ("NetIncome", pickBoot facts cutoff "NetIncomeLoss"),
   ("OperatingCashFlow", pickBoot facts cutoff "NetCashProvidedByUsedInOperatingActivities"),
   ("Assets", pickBoot facts cutoff "Assets"),
   ("Liabilities", pickBoot facts cutoff "Liabilities"),
   ("Equity", pickBoot facts cutoff "StockholdersEquity")]

/-- Insert-or-overwrite into a year-keyed dict, keeping the original
insertion position of an existing key (Python dict semantics). -/
def dictInsYear (k : Nat) (v : Int) : List (Nat × Int) → List (Nat × Int)
  | [] => [(k, v)]
  | (k', v') :: rest => if k' == k then (k', v) :: rest else (k', v') :: dictInsYear k v rest

/-- The `pick` closure of `latest_years` (daily update, lines 43–45):
`{int(i["end"][:4]): i["val"] for i in items}` — every item, no year
filter, later items overwriting earlier ones with the same year. -/
def pickDaily (facts : Facts) (name : String) : List (Nat × Int) :=
  (usdItems facts name).foldl (fun d i => dictInsYear (yearOf i.endDate) i.val d) []

/-- `latest_years` (daily update, lines 39–53). -/
def latest_years (facts : Facts) : List (String × List (Nat × Int)) :=
  [("Revenue", pickDaily facts "Revenues"),
   ("NetIncome", pickDaily facts "NetIncomeLoss"),
   ("OperatingCashFlow", pickDaily facts "NetCashProvidedByUsedInOperatingActivities"),
   ("Assets", pickDaily facts "Assets"),
   ("Liabilities", pickDaily facts "Liabilities"),
   ("Equity", pickDaily facts "StockholdersEquity")]

/-- A stored company's `"financials"` object: metric → observations. -/
abbrev FinMap := List (String × List Obs)

/-- `info["financials"].setdefault(metric, []).append(o)`: append to the
metric's list in place, creating the key (at the end, in dict insertion
order) if missing. -/
def appendObs (f : FinMap) (m : String) (o : Obs) : FinMap :=
  match f with
  | [] => [(m, [o])]
  | kv :: rest =>
    if kv.1 == m then (kv.1, kv.2 ++ [o]) :: rest else kv :: appendObs rest m o

/-- One iteration of the inner loop of the daily update's `main`
(lines 72–75): skip a fetched `(year, val)` whose year is in
`known_years`, append it otherwise. -/
def mergeStep (known : List Nat) (m : String) (acc : FinMap) (yv : Nat × Int) : FinMap :=
  if known.contains yv.1 then acc else appendObs acc m (Obs.mk yv.1 yv.2)

/-- The inner loop of the daily update's `main` (lines 70–75) for one
metric: `known_years` is fixed from the stored list before the loop, then
each fetched `(year, val)` not in `known_years` is appended. -/
def mergeMetric (f : FinMap) (m : String) (fetched : List (Nat × Int)) : FinMap :=
  fetched.foldl (mergeStep (((lookupA f m).getD []).map Obs.year) m) f

/-- The full merge of the daily update's `main`: one `mergeMetric` pass per
fetched metric, in the fetched dict's iteration order. -/
def mergeFinancials (f : FinMap) (updated : List (String × List (Nat × Int))) : FinMap :=
  updated.foldl (fun acc mu => mergeMetric acc mu.1 mu.2) f

/-! ## First-match characterisation of `List.find?` -/

/-- If `p` first holds at position `i`, `find?` returns the element there. -/
theorem find?_eq_some_of_first {α : Type} (p : α → Bool) :
    ∀ (l : List α) (i : Fin l.length),
      p (l.get i) = true →
      (∀ j : Fin l.length, j.val < i.val → p (l.get j) = false) →
      l.find? p = some (l.get i)
  | [], i, _, _ => absurd i.isLt (by simp)
  | x :: xs, ⟨0, _⟩, hp, _ => by
      simp only [List.get] at hp
      simp [List.find?, hp]
  | x :: xs, ⟨i + 1, hi⟩, hp, hfst => by
      have hx : p x = false := hfst ⟨0, Nat.succ_pos _⟩ (Nat.succ_pos _)
      have ih := find?_eq_some_of_first p xs ⟨i, Nat.lt_of_succ_lt_succ hi⟩
        hp (fun j hj => hfst ⟨j.val + 1, Nat.succ_lt_succ j.isLt⟩ (Nat.succ_lt_succ hj))
      simp [List.find?, hx, ih]

/-- Conversely, a successful `find?` returns the first position where `p`
holds. -/
theorem find?_first_spec {α : Type} (p : α → Bool) :
    ∀ (l : List α) (a : α), l.find? p = some a →
      ∃ i : Fin l.length, l.get i = a ∧ p a = true ∧
        ∀ j : Fin l.length, j.val < i.val → p (l.get j) = false
  | [], a, h => by simp [List.find?] at h
  | x :: xs, a, h => by
      by_cases hx : p x = true
      · simp only [List.find?, hx] at h
        cases h
        refine ⟨⟨0, Nat.succ_pos _⟩, rfl, hx, ?_⟩
        intro j hj
        exact absurd hj (Nat.not_lt_zero _)
      · have hx' : p x = false := by simpa using hx
        have h' : xs.find? p = some a := by simpa [List.find?, hx'] using h
        obtain ⟨i, hget, hpa, hfst⟩ := find?_first_spec p xs a h'
        refine ⟨⟨i.val + 1, Nat.succ_lt_succ i.isLt⟩, by simpa using hget, hpa, ?_⟩
        intro j hj
        match j with
        | ⟨0, _⟩ => exact hx'
        | ⟨k + 1, hk⟩ => exact hfst ⟨k, Nat.lt_of_succ_lt_succ hk⟩ (Nat.lt_of_succ_lt_succ hj)

/-- When `p` holds nowhere, `find?` fails. -/
theorem find?_eq_none_of_all {α : Type} (p : α → Bool) (l : List α)
    (h : ∀ i : Fin l.length, p (l.get i) = false) : l.find? p = none := by
  rw [List.find?_eq_none]
  intro x hx
  obtain ⟨i, rfl⟩ := List.mem_iff_get.mp hx
  intro hcon
  rw [h i] at hcon
  exact Bool.false_ne_true hcon

/-! ## Specification of `extractOne` -/

/-- Invariant of the `pickBest` scan: either no later score strictly beats
the accumulator and it is returned unchanged, or the result is the first
position of the maximum among the scores that beat it. -/
theorem pickBest_spec {α : Type} (f : α → ℚ) :
    ∀ (xs : List α) (acc : α × ℚ × Nat) (i : Nat),
      (pickBest f acc i xs = acc ∧ ∀ x ∈ xs, f x ≤ acc.2.1) ∨
      (∃ j : Fin xs.length,
        pickBest f acc i xs = (xs.get j, f (xs.get j), i + j.val) ∧
        acc.2.1 < f (xs.get j) ∧
        (∀ x ∈ xs, f x ≤ f (xs.get j)) ∧
        (∀ k : Fin xs.length, k.val < j.val → f (xs.get k) < f (xs.get j)))
  | [], acc, i => Or.inl ⟨rfl, by simp⟩
  | x :: xs, acc, i => by
      by_cases hx : acc.2.1 < f x
      · have hstep : pickBest f acc i (x :: xs) = pickBest f (x, f x, i) (i + 1) xs := by
          simp [pickBest, hx]
        rcases pickBest_spec f xs (x, f x, i) (i + 1) with ⟨heq, hle⟩ | ⟨j, heq, hgt, hmax, hfst⟩
        · refine Or.inr ⟨⟨0, Nat.succ_pos _⟩, ?_, ?_, ?_, ?_⟩
          · rw [hstep, heq]
            rfl
          · exact hx
          · intro y hy
            rcases List.mem_cons.mp hy with rfl | hy'
            · exact le_refl _
            · exact hle y hy'
          · intro k hk
            exact absurd hk (Nat.not_lt_zero _)
        · refine Or.inr ⟨⟨j.val + 1, Nat.succ_lt_succ j.isLt⟩, ?_, ?_, ?_, ?_⟩
          · have hidx : i + 1 + j.val = i + (j.val + 1) := by omega
            rw [hstep, heq, hidx]
            rfl
          · exact lt_trans hx hgt
          · intro y hy
            rcases List.mem_cons.mp hy with rfl | hy'
            · exact le_of_lt hgt
            · exact hmax y hy'
          · intro k hk
            match k with
            | ⟨0, _⟩ => exact hgt
            | ⟨m + 1, hm⟩ => exact hfst ⟨m, Nat.lt_of_succ_lt_succ hm⟩ (Nat.lt_of_succ_lt_succ hk)
      · have hstep : pickBest f acc i (x :: xs) = pickBest f acc (i + 1) xs := by
          simp [pickBest, hx]
        have hxle : f x ≤ acc.2.1 := le_of_not_lt hx
        rcases pickBest_spec f xs acc (i + 1) with ⟨heq, hle⟩ | ⟨j, heq, hgt, hmax, hfst⟩
        · refine Or.inl ⟨by rw [hstep, heq], ?_⟩
          intro y hy
          rcases List.mem_cons.mp hy with rfl | hy'
          · exact hxle
          · exact hle y hy'
        · refine Or.inr ⟨⟨j.val + 1, Nat.succ_lt_succ j.isLt⟩, ?_, ?_, ?_, ?_⟩
          · have hidx : i + 1 + j.val = i + (j.val + 1) := by omega
            rw [hstep, heq, hidx]
            rfl
          · exact hgt
          · intro y hy
            rcases List.mem_cons.mp hy with rfl | hy'
            · exact le_of_lt (lt_of_le_of_lt hxle hgt)
            · exact hmax y hy'
          · intro k hk
            match k with
            | ⟨0, _⟩ => exact lt_of_le_of_lt hxle hgt
            | ⟨m + 1, hm⟩ => exact hfst ⟨m, Nat.lt_of_succ_lt_succ hm⟩ (Nat.lt_of_succ_lt_succ hk)

/-- `extractOne` on a non-empty list returns the score maximum, at its
first position, together with the element there. -/
theorem extractOne_spec {α : Type} (f : α → ℚ) (l : List α) (hne : l ≠ []) :
    ∃ i : Fin l.length,
      extractOne f l = some (l.get i, f (l.get i), i.val) ∧
      (∀ x ∈ l, f x ≤ f (l.get i)) ∧
      (∀ k : Fin l.length, k.val < i.val → f (l.get k) < f (l.get i)) := by
  match l with
  | [] => exact absurd rfl hne
  | x :: xs =>
      have hstep : extractOne f (x :: xs) = some (pickBest f (x, f x, 0) 1 xs) := rfl
      rcases pickBest_spec f xs (x, f x, 0) 1 with ⟨heq, hle⟩ | ⟨j, heq, hgt, hmax, hfst⟩
      · refine ⟨⟨0, Nat.succ_pos _⟩, ?_, ?_, ?_⟩
        · rw [hstep, heq]
          rfl
        · intro y hy
          rcases List.mem_cons.mp hy with rfl | hy'
          · exact le_refl _
          · exact hle y hy'
        · intro k hk
          exact absurd hk (Nat.not_lt_zero _)
      · refine ⟨⟨j.val + 1, Nat.succ_lt_succ j.isLt⟩, ?_, ?_, ?_⟩
        · have hidx : 1 + j.val = j.val + 1 := by omega
          rw [hstep, heq, hidx]
          rfl
        · intro y hy
          rcases List.mem_cons.mp hy with rfl | hy'
          · exact le_of_lt hgt
          · exact hmax y hy'
        · intro k hk
          match k with
          | ⟨0, _⟩ => exact hgt
          | ⟨m + 1, hm⟩ => exact hfst ⟨m, Nat.lt_of_succ_lt_succ hm⟩ (Nat.lt_of_succ_lt_succ hk)

/-! ## `' '.join(l.split())` and `trim(collapse(l))` both equal `canon l` -/

/-- The contribution of the segments after the current word to the joined
string: nothing if no further word, otherwise one space and the join. -/
def joinTail (t : List (List Char)) : List Char :=
  let tf := t.filter (fun w => !w.isEmpty)
  if tf.isEmpty then [] else ' ' :: pyJoin tf

theorem pyJoin_cons (w : List Char) (ws : List (List Char)) :
    pyJoin (w :: ws) = w ++ (if ws.isEmpty then [] else ' ' :: pyJoin ws) := by
  cases ws <;> simp [pyJoin]

theorem splitAll_cons_ws {c : Char} (l : List Char) (hc : isWsChar c = true) :
    splitAll (c :: l) = [] :: splitAll l := by
  simp [splitAll, hc]

theorem splitAll_cons_nonws {c : Char} {l : List Char} {h : List Char}
    {t : List (List Char)} (hc : isWsChar c = false) (hsp : splitAll l = h :: t) :
    splitAll (c :: l) = (c :: h) :: t := by
  simp [splitAll, hc, hsp]

theorem splitAll_ne_nil : ∀ l : List Char, splitAll l ≠ []
  | [] => by simp [splitAll]
  | c :: rest => by
      by_cases hc : isWsChar c = true
      · simp [splitAll, hc]
      · cases hsp : splitAll rest with
        | nil => simp [splitAll, hc, hsp]
        | cons g gs => simp [splitAll, hc, hsp]

theorem pySplit_cons_ws {c : Char} (l : List Char) (hc : isWsChar c = true) :
    pySplit (c :: l) = pySplit l := by
  simp [pySplit, splitAll_cons_ws l hc, List.filter]

theorem pySplit_cons_nonws {c : Char} {l : List Char} {h : List Char}
    {t : List (List Char)} (hc : isWsChar c = false) (hsp : splitAll l = h :: t) :
    pySplit (c :: l) = (c :: h) :: t.filter (fun w => !w.isEmpty) := by
  simp [pySplit, splitAll_cons_nonws hc hsp, List.filter]

theorem pyJoin_pySplit_ne_nil {l : List Char} {w : List Char}
    {ws : List (List Char)} (hsp : pySplit l = w :: ws) :
    pyJoin (pySplit l) ≠ [] := by
  have hw : w ∈ pySplit l := by rw [hsp]; exact List.mem_cons_self _ _
  have hwne : w.isEmpty = false := by
    have := List.of_mem_filter hw
    simpa using this
  rw [hsp]
  match w, hwne with
  | a :: w', _ =>
      rw [pyJoin_cons]
      simp

/-- `' '.join(l.split())` computes `canon l`; the second conjunct is the
invariant for the in-word state. -/
theorem pyJoin_pySplit_eq_canon : ∀ l : List Char,
    pyJoin (pySplit l) = canon l ∧
      ∀ h t, splitAll l = h :: t → canonWord l = h ++ joinTail t := by
  intro l
  induction l with
  | nil =>
      constructor
      · simp [pySplit, splitAll, pyJoin, canon]
      · intro h t hsp
        simp only [splitAll] at hsp
        cases hsp
        simp [canonWord, joinTail, pyJoin]
  | cons c rest ih =>
      by_cases hc : isWsChar c = true
      · constructor
        · rw [pySplit_cons_ws rest hc]
          rw [ih.1]
          simp [canon, hc]
        · intro h t hsp
          rw [splitAll_cons_ws rest hc] at hsp
          cases hsp
          simp only [canonWord, hc, if_pos rfl]
          cases hcr : pySplit rest with
          | nil =>
              have hcanon : canon rest = [] := by
                rw [← ih.1, hcr]
                rfl
              have htf : (splitAll rest).filter (fun w => !w.isEmpty) = [] := hcr
              rw [hcanon]
              simp [joinTail, htf]
          | cons w ws =>
              have hcanon : canon rest = pyJoin (pySplit rest) := (ih.1).symm
              have hne : canon rest ≠ [] := by
                rw [hcanon]
                exact pyJoin_pySplit_ne_nil hcr
              have hjt : joinTail (splitAll rest) = ' ' :: canon rest := by
                have htf : (splitAll rest).filter (fun w => !w.isEmpty) = w :: ws := hcr
                simp only [joinTail, htf]
                rw [hcanon, hcr]
                simp
              rw [hjt]
              cases hcv : canon rest with
              | nil => exact absurd hcv hne
              | cons a as => simp
      · have hc' : isWsChar c = false := by simpa using hc
        obtain ⟨h0, t0, hsp0⟩ : ∃ h0 t0, splitAll rest = h0 :: t0 := by
          cases hsp : splitAll rest with
          | nil => exact absurd hsp (splitAll_ne_nil rest)
          | cons g gs => exact ⟨g, gs, rfl⟩
        constructor
        · rw [pySplit_cons_nonws hc' hsp0, pyJoin_cons]
          have hcw : canonWord rest = h0 ++ joinTail t0 := ih.2 h0 t0 hsp0
          simp only [canon, hc', Bool.false_eq_true, if_false]
          rw [hcw]
          simp only [joinTail]
          by_cases htf : (t0.filter (fun w => !w.isEmpty)).isEmpty = true
          · simp [htf]
          · have htf' : (t0.filter (fun w => !w.isEmpty)).isEmpty = false := by simpa using htf
            simp [htf']
        · intro h t hsp
          rw [splitAll_cons_nonws hc' hsp0] at hsp
          cases hsp
          have hcw : canonWord rest = h0 ++ joinTail t0 := ih.2 h0 t0 hsp0
          simp only [canonWord, hc', Bool.false_eq_true, if_false]
          rw [hcw]
          simp

theorem wsSpace : isWsChar ' ' = true := rfl

theorem collapseWs_cons_nonws {a : Char} (r : List Char) (ha : isWsChar a = false) :
    collapseWs (a :: r) = a :: collapseWs r := by
  cases r with
  | nil => simp [collapseWs, ha]
  | cons b r' => simp [collapseWs, ha]

theorem trimEndWs_cons_nonws {c : Char} (y : List Char) (hcn : isWsChar c = false) :
    trimEndWs (c :: y) = c :: trimEndWs y := by
  simp only [trimEndWs]
  cases h : trimEndWs y with
  | nil => simp [hcn]
  | cons o os => simp

/-- Collapsing then right-trimming computes the in-word state `canonWord`
(one leading separator is kept, which the left trim of `trimWs` removes). -/
theorem trimEnd_collapse_eq_canonWord : ∀ r : List Char,
    trimEndWs (collapseWs r) = canonWord r
  | [] => rfl
  | c :: rest => by
      by_cases hc : isWsChar c = true
      · cases rest with
        | nil => simp [collapseWs, hc, trimEndWs, canonWord, canon, wsSpace]
        | cons b r' =>
            by_cases hb : isWsChar b = true
            · have h1 : collapseWs (c :: b :: r') = collapseWs (b :: r') := by
                simp [collapseWs, hc, hb]
              rw [h1, trimEnd_collapse_eq_canonWord (b :: r')]
              simp [canonWord, hc, hb, canon]
            · have hb' : isWsChar b = false := by simpa using hb
              have h1 : collapseWs (c :: b :: r') = ' ' :: collapseWs (b :: r') := by
                simp [collapseWs, hc, hb']
              have h3 : canonWord (b :: r') = b :: canonWord r' := by
                simp [canonWord, hb']
              have h2 := trimEnd_collapse_eq_canonWord (b :: r')
              rw [h1]
              have h4 : trimEndWs (' ' :: collapseWs (b :: r')) = ' ' :: b :: canonWord r' := by
                simp only [trimEndWs]
                rw [h2, h3]
              rw [h4]
              have h5 : canon (b :: r') = b :: canonWord r' := by
                simp [canon, hb']
              simp [canonWord, hc, h5]
      · have hc' : isWsChar c = false := by simpa using hc
        rw [collapseWs_cons_nonws rest hc',
            trimEndWs_cons_nonws (collapseWs rest) hc',
            trimEnd_collapse_eq_canonWord rest]
        simp [canonWord, hc']

/-- The spec's step (d) — collapse whitespace runs, then trim — computes
`canon`. -/
theorem trimWs_collapse_eq_canon : ∀ l : List Char,
    trimWs (collapseWs l) = canon l
  | [] => rfl
  | c :: rest => by
      by_cases hc : isWsChar c = true
      · cases rest with
        | nil =>
            show trimEndWs ((collapseWs [c]).dropWhile isWsChar) = canon [c]
            simp [collapseWs, hc, List.dropWhile, wsSpace, trimEndWs, canon]
        | cons b r' =>
            by_cases hb : isWsChar b = true
            · have h1 : collapseWs (c :: b :: r') = collapseWs (b :: r') := by
                simp [collapseWs, hc, hb]
              show trimWs (collapseWs (c :: b :: r')) = canon (c :: b :: r')
              rw [h1, trimWs_collapse_eq_canon (b :: r')]
              simp [canon, hc]
            · have hb' : isWsChar b = false := by simpa using hb
              have h1 : collapseWs (c :: b :: r') = ' ' :: collapseWs (b :: r') := by
                simp [collapseWs, hc, hb']
              have hhead : collapseWs (b :: r') = b :: collapseWs r' :=
                collapseWs_cons_nonws r' hb'
              show trimEndWs ((collapseWs (c :: b :: r')).dropWhile isWsChar) =
                canon (c :: b :: r')
              rw [h1]
              rw [List.dropWhile_cons]
              rw [wsSpace]
              simp only [if_true]
              rw [hhead, List.dropWhile_cons, hb']
              simp only [Bool.false_eq_true, if_false]
              rw [← hhead, trimEnd_collapse_eq_canonWord (b :: r')]
              simp [canon, hc, canonWord, hb']
      · have hc' : isWsChar c = false := by simpa using hc
        show trimEndWs ((collapseWs (c :: rest)).dropWhile isWsChar) = canon (c :: rest)
        rw [collapseWs_cons_nonws rest hc', List.dropWhile_cons, hc']
        simp only [Bool.false_eq_true, if_false]
        rw [← collapseWs_cons_nonws rest hc', trimEnd_collapse_eq_canonWord (c :: rest)]
        simp [canon, canonWord, hc']

/-! ## Idempotence machinery for the normalizer -/

/-- `canon` is idempotent (jointly with the in-word state). -/
theorem canon_canon : ∀ l : List Char,
    canon (canon l) = canon l ∧ canonWord (canonWord l) = canonWord l := by
  intro l
  induction l with
  | nil => exact ⟨rfl, rfl⟩
  | cons c rest ih =>
      by_cases hc : isWsChar c = true
      · constructor
        · simp only [canon, hc, if_pos rfl]
          exact ih.1
        · have hcw : canonWord (c :: rest) =
              match canon rest with
              | [] => []
              | out => ' ' :: out := by
            simp [canonWord, hc]
          rw [hcw]
          cases hcv : canon rest with
          | nil => rfl
          | cons a as =>
              have hca : canon (a :: as) = a :: as := by
                rw [← hcv]
                exact ih.1
              show canonWord (' ' :: a :: as) = ' ' :: a :: as
              simp [canonWord, wsSpace, hca]
      · have hc' : isWsChar c = false := by simpa using hc
        constructor
        · simp only [canon, canonWord, hc', Bool.false_eq_true, if_false]
          rw [ih.2]
        · simp only [canonWord, hc', Bool.false_eq_true, if_false]
          rw [ih.2]

/-- Characters of `canon l` come from `l` or are the inserted space. -/
theorem canon_mem : ∀ l : List Char,
    (∀ x ∈ canon l, x ∈ l ∨ x = ' ') ∧ (∀ x ∈ canonWord l, x ∈ l ∨ x = ' ') := by
  intro l
  induction l with
  | nil => constructor <;> (intro x hx; simp [canon, canonWord] at hx)
  | cons c rest ih =>
      by_cases hc : isWsChar c = true
      · constructor
        · intro x hx
          simp only [canon, hc, if_pos rfl] at hx
          rcases ih.1 x hx with hm | hsp
          · exact Or.inl (List.mem_cons_of_mem _ hm)
          · exact Or.inr hsp
        · intro x hx
          simp only [canonWord, hc, if_pos rfl] at hx
          cases hcv : canon rest with
          | nil => rw [hcv] at hx; simp at hx
          | cons a as =>
              rw [hcv] at hx
              rcases List.mem_cons.mp hx with rfl | hx'
              · exact Or.inr rfl
              · rcases ih.1 x (hcv ▸ hx') with hm | hsp
                · exact Or.inl (List.mem_cons_of_mem _ hm)
                · exact Or.inr hsp
      · have hc' : isWsChar c = false := by simpa using hc
        constructor
        · intro x hx
          simp only [canon, hc', Bool.false_eq_true, if_false] at hx
          rcases List.mem_cons.mp hx with rfl | hx'
          · exact Or.inl (List.mem_cons_self _ _)
          · rcases ih.2 x hx' with hm | hsp
            · exact Or.inl (List.mem_cons_of_mem _ hm)
            · exact Or.inr hsp
        · intro x hx
          simp only [canonWord, hc', Bool.false_eq_true, if_false] at hx
          rcases List.mem_cons.mp hx with rfl | hx'
          · exact Or.inl (List.mem_cons_self _ _)
          · rcases ih.2 x hx' with hm | hsp
            · exact Or.inl (List.mem_cons_of_mem _ hm)
            · exact Or.inr hsp

/-- Characters already in `[a-z0-9 ]` are fixed by ASCII lower-casing. -/
theorem lowerChar_fix {c : Char} (h : allowedChar c = true) : lowerChar c = c := by
  simp only [allowedChar, Bool.or_eq_true, Bool.and_eq_true, decide_eq_true_eq,
    beq_iff_eq] at h
  unfold lowerChar
  rcases h with (h | h) | h
  · rw [if_neg (by omega)]
  · rw [if_neg (by omega)]
  · rw [if_neg (by omega)]

/-- Mapping a function that fixes every member is the identity. -/
theorem map_id_of_mem {α : Type} (f : α → α) :
    ∀ l : List α, (∀ x ∈ l, f x = x) → l.map f = l
  | [], _ => rfl
  | x :: xs, h => by
      rw [List.map_cons, h x (List.mem_cons_self _ _),
        map_id_of_mem f xs (fun y hy => h y (List.mem_cons_of_mem _ hy))]

/-! ## Characterisation of the daily-update merge -/

theorem lookupA_nil {α : Type} (k : String) : lookupA ([] : List (String × α)) k = none := rfl

theorem lookupA_cons {α : Type} (k' : String) (v : α) (rest : List (String × α)) (k : String) :
    lookupA ((k', v) :: rest) k = if k' == k then some v else lookupA rest k := by
  by_cases h : (k' == k) = true
  · simp [lookupA, List.find?, h]
  · have h' : (k' == k) = false := by simpa using h
    simp [lookupA, List.find?, h']

theorem lookupA_eq_none_of_not_mem {α : Type} :
    ∀ (l : List (String × α)) (k : String), k ∉ l.map Prod.fst → lookupA l k = none
  | [], _, _ => rfl
  | (k', v) :: rest, k, h => by
      have hne : k' ≠ k := by
        intro hcon
        exact h (by simp [hcon])
      have hb : (k' == k) = false := by simpa using hne
      rw [lookupA_cons, hb]
      simp only [Bool.false_eq_true, if_false]
      exact lookupA_eq_none_of_not_mem rest k (fun hm => h (List.mem_cons_of_mem _ hm))

theorem appendObs_lookup_self :
    ∀ (f : FinMap) (m : String) (o : Obs),
      lookupA (appendObs f m o) m = some (((lookupA f m).getD []) ++ [o])
  | [], m, o => by
      simp [appendObs, lookupA_cons, lookupA_nil]
  | (k, v) :: rest, m, o => by
      by_cases h : (k == m) = true
      · have ha : appendObs ((k, v) :: rest) m o = (k, v ++ [o]) :: rest := by
          simp [appendObs, h]
        rw [ha, lookupA_cons, lookupA_cons, h]
        simp
      · have h' : (k == m) = false := by simpa using h
        have ha : appendObs ((k, v) :: rest) m o = (k, v) :: appendObs rest m o := by
          simp [appendObs, h']
        rw [ha, lookupA_cons, lookupA_cons, h']
        simp only [Bool.false_eq_true, if_false]
        exact appendObs_lookup_self rest m o

theorem appendObs_lookup_other :
    ∀ (f : FinMap) (m : String) (o : Obs) (m' : String), m' ≠ m →
      lookupA (appendObs f m o) m' = lookupA f m'
  | [], m, o, m', hne => by
      have hb : (m == m') = false := by simpa using (Ne.symm hne)
      simp [appendObs, lookupA_cons, lookupA_nil, hb]
  | (k, v) :: rest, m, o, m', hne => by
      by_cases h : (k == m) = true
      · have ha : appendObs ((k, v) :: rest) m o = (k, v ++ [o]) :: rest := by
          simp [appendObs, h]
        have hkm : k = m := by simpa using h
        have hk' : (k == m') = false := by
          subst hkm
          simpa using (Ne.symm hne)
        rw [ha, lookupA_cons, lookupA_cons, hk']
        simp
      · have h' : (k == m) = false := by simpa using h
        have ha : appendObs ((k, v) :: rest) m o = (k, v) :: appendObs rest m o := by
          simp [appendObs, h']
        rw [ha, lookupA_cons, lookupA_cons]
        by_cases hk : (k == m') = true
        · rw [hk]
          simp
        · have hk' : (k == m') = false := by simpa using hk
          rw [hk']
          simp only [Bool.false_eq_true, if_false]
          exact appendObs_lookup_other rest m o m' hne

/-- The observations the loop appends for one metric: the fetched pairs
whose year is not among `known`, in fetched order. -/
def addsK (known : List Nat) (d : List (Nat × Int)) : List Obs :=
  (d.filter (fun yv => !(known.contains yv.1))).map (fun yv => Obs.mk yv.1 yv.2)

/-- What one metric's entry looks like after the merge, as a function of
the stored entry (`none` when the metric key is absent) and the fetched
year dict. -/
def mergedAt (fm : Option (List Obs)) (d : List (Nat × Int)) : Option (List Obs) :=
  let adds := addsK ((fm.getD []).map Obs.year) d
  match fm with
  | some ol => some (ol ++ adds)
  | none => if adds.isEmpty then none else some adds

theorem foldMerge_lookup (m : String) (known : List Nat) :
    ∀ (d : List (Nat × Int)) (acc : FinMap),
      lookupA (d.foldl (mergeStep known m) acc) m =
        (match lookupA acc m with
         | some ol => some (ol ++ addsK known d)
         | none => if (addsK known d).isEmpty then none else some (addsK known d))
  | [], acc => by
      cases h : lookupA acc m with
      | none => simp [addsK, h]
      | some ol => simp [addsK, h]
  | yv :: d', acc => by
      by_cases hk : known.contains yv.1 = true
      · have hstep : mergeStep known m acc yv = acc := by
          unfold mergeStep
          rw [hk]
          simp
        have hadds : addsK known (yv :: d') = addsK known d' := by
          unfold addsK
          rw [List.filter_cons, hk]
          simp
        rw [List.foldl_cons, hstep, foldMerge_lookup m known d' acc, hadds]
      · have hk' : known.contains yv.1 = false := by simpa using hk
        have hstep : mergeStep known m acc yv = appendObs acc m (Obs.mk yv.1 yv.2) := by
          unfold mergeStep
          rw [hk']
          simp
        have hadds : addsK known (yv :: d') = Obs.mk yv.1 yv.2 :: addsK known d' := by
          unfold addsK
          rw [List.filter_cons, hk']
          simp
        rw [List.foldl_cons, hstep, foldMerge_lookup m known d' _, hadds,
          appendObs_lookup_self acc m (Obs.mk yv.1 yv.2)]
        cases h : lookupA acc m with
        | none => simp [h]
        | some ol => simp [h]

theorem mergeMetric_lookup_self (f : FinMap) (m : String) (d : List (Nat × Int)) :
    lookupA (mergeMetric f m d) m = mergedAt (lookupA f m) d := by
  unfold mergeMetric mergedAt
  rw [foldMerge_lookup]

theorem mergeMetric_lookup_other (f : FinMap) (m : String) (d : List (Nat × Int))
    (m' : String) (hne : m' ≠ m) :
    lookupA (mergeMetric f m d) m' = lookupA f m' := by
  unfold mergeMetric
  generalize ((lookupA f m).getD []).map Obs.year = known
  induction d generalizing f with
  | nil => rfl
  | cons yv d' ih =>
      rw [List.foldl_cons]
      by_cases hk : known.contains yv.1 = true
      · have hstep : mergeStep known m f yv = f := by
          unfold mergeStep
          rw [hk]
          simp
        rw [hstep]
        exact ih f
      · have hk' : known.contains yv.1 = false := by simpa using hk
        have hstep : mergeStep known m f yv = appendObs f m (Obs.mk yv.1 yv.2) := by
          unfold mergeStep
          rw [hk']
          simp
        rw [hstep]
        rw [ih (appendObs f m (Obs.mk yv.1 yv.2))]
        exact appendObs_lookup_other f m (Obs.mk yv.1 yv.2) m' hne

/-- Full characterisation of the merge: a metric not fetched keeps its
stored entry; a fetched metric gets exactly the fetched years not already
stored appended after the untouched stored observations. -/
theorem mergeFinancials_lookup :
    ∀ (updated : List (String × List (Nat × Int))) (f : FinMap) (m : String),
      (updated.map Prod.fst).Nodup →
      lookupA (mergeFinancials f updated) m =
        (match lookupA updated m with
         | none => lookupA f m
         | some d => mergedAt (lookupA f m) d)
  | [], f, m, _ => by simp [mergeFinancials, lookupA_nil]
  | (m0, d0) :: rest, f, m, hnd => by
      have hnd2 : (m0 :: rest.map Prod.fst).Nodup := by simpa using hnd
      have hnd' : (rest.map Prod.fst).Nodup := hnd2.of_cons
      have hm0 : m0 ∉ rest.map Prod.fst := (List.nodup_cons.mp hnd2).1
      have hstep : mergeFinancials f ((m0, d0) :: rest) =
          mergeFinancials (mergeMetric f m0 d0) rest := rfl
      rw [hstep, mergeFinancials_lookup rest (mergeMetric f m0 d0) m hnd']
      by_cases h : (m0 == m) = true
      · have hmm : m0 = m := by simpa using h
        subst hmm
        have hrest : lookupA rest m0 = none := lookupA_eq_none_of_not_mem rest m0 hm0
        have hsome : lookupA ((m0, d0) :: rest) m0 = some d0 := by
          rw [lookupA_cons]
          simp
        rw [hrest, hsome]
        exact mergeMetric_lookup_self f m0 d0
      · have h' : (m0 == m) = false := by simpa using h
        have hne : m ≠ m0 := by
          intro hcon
          subst hcon
          simp at h'
        rw [lookupA_cons, h']
        simp only [Bool.false_eq_true, if_false]
        cases hr : lookupA rest m with
        | none =>
            exact mergeMetric_lookup_other f m0 d0 m hne
        | some d =>
            rw [mergeMetric_lookup_other f m0 d0 m hne]

/-! ## Per-entry views of a resolution call -/

/-- The similarity score of registry entry `i` against query `q`, as
computed in the fuzzy step of the bootstrap `get_cik`: `token_sort_ratio`
of the normalized query against the normalized title. -/
def resScore (q : String) (mapping : Registry) (i : Fin mapping.length) : ℚ :=
  tokenSortScore (normalize_name q) (normalize_name (mapping.get i).2.title)

/-- Does entry `i`'s normalized title contain the normalized query as a
substring (the fallback test of the bootstrap `get_cik`)? -/
def subMatchAt (q : String) (mapping : Registry) (i : Fin mapping.length) : Bool :=
  isSubOf (normalize_name q).toList (normalize_name (mapping.get i).2.title).toList

/-- The registry key shape the bootstrap `get_cik` relies on: the keys are
the decimal strings of the iteration positions, as in the SEC
`company_tickers.json` (`{"0": ..., "1": ..., ...}`). -/
def canonKeys (mapping : Registry) : Prop :=
  mapping.map Prod.fst = (List.range mapping.length).map (fun i => toString i)

instance (mapping : Registry) : Decidable (canonKeys mapping) := by
  unfold canonKeys
  infer_instance

theorem get_cik_eq (q : String) (mapping : Registry) :
    get_cik q mapping =
      match extractOne (fun c => tokenSortScore (normalize_name q) c)
          (mapping.map (fun kv => normalize_name kv.2.title)) with
      | none => RRes.crash
      | some (_, score, key) =>
        if 85 ≤ score then
          match mapping.find? (fun kv => kv.1 == toString key) with
          | some kv => RRes.found (zfill10 kv.2.cik_str)
          | none => RRes.crash
        else
          match mapping.find? (fun kv =>
              isSubOf (normalize_name q).toList (normalize_name kv.2.title).toList) with
          | some kv => RRes.found (zfill10 kv.2.cik_str)
          | none => RRes.notFound score := rfl

/-- Case analysis on a bootstrap resolution call over a non-empty
registry: the fuzzy step singles out the first entry of maximal score,
and the call continues into the threshold branch (with that entry's
index as dict key) or the fallback branch (with that maximal score in
the failure payload). -/
theorem get_cik_cases (q : String) (mapping : Registry) (hne : mapping ≠ []) :
    ∃ i : Fin mapping.length,
      (∀ k : Fin mapping.length, resScore q mapping k ≤ resScore q mapping i) ∧
      (∀ k : Fin mapping.length, k.val < i.val →
        resScore q mapping k < resScore q mapping i) ∧
      ((85 ≤ resScore q mapping i ∧
          get_cik q mapping =
            (match mapping.find? (fun kv => kv.1 == toString i.val) with
             | some kv => RRes.found (zfill10 kv.2.cik_str)
             | none => RRes.crash)) ∨
       (resScore q mapping i < 85 ∧
          get_cik q mapping =
            (match mapping.find? (fun kv =>
                isSubOf (normalize_name q).toList (normalize_name kv.2.title).toList) with
             | some kv => RRes.found (zfill10 kv.2.cik_str)
             | none => RRes.notFound (resScore q mapping i)))) := by
  classical
  have hcne : mapping.map (fun kv => normalize_name kv.2.title) ≠ [] := by
    intro hcon
    exact hne (List.map_eq_nil_iff.mp hcon)
  obtain ⟨i', hext, hmax, hfst⟩ :=
    extractOne_spec (fun c => tokenSortScore (normalize_name q) c)
      (mapping.map (fun kv => normalize_name kv.2.title)) hcne
  have hlen : (mapping.map (fun kv => normalize_name kv.2.title)).length = mapping.length :=
    List.length_map _ _
  have hget : ∀ (k : Nat) (hk : k < (mapping.map (fun kv => normalize_name kv.2.title)).length),
      (mapping.map (fun kv => normalize_name kv.2.title)).get ⟨k, hk⟩ =
        normalize_name ((mapping.get ⟨k, hlen ▸ hk⟩).2.title) := by
    intro k hk
    simp [List.get_eq_getElem, List.getElem_map]
  have hlt : i'.val < mapping.length := hlen ▸ i'.isLt
  have hsci : tokenSortScore (normalize_name q)
      ((mapping.map (fun kv => normalize_name kv.2.title)).get i') =
      resScore q mapping ⟨i'.val, hlt⟩ := by
    unfold resScore
    rw [show (mapping.map (fun kv => normalize_name kv.2.title)).get i' =
      (mapping.map (fun kv => normalize_name kv.2.title)).get ⟨i'.val, i'.isLt⟩ from rfl,
      hget i'.val i'.isLt]
  have hsck : ∀ (k : Nat) (hk : k < mapping.length),
      tokenSortScore (normalize_name q)
        ((mapping.map (fun kv => normalize_name kv.2.title)).get ⟨k, hlen.symm ▸ hk⟩) =
        resScore q mapping ⟨k, hk⟩ := by
    intro k hk
    unfold resScore
    rw [hget k (hlen.symm ▸ hk)]
  refine ⟨⟨i'.val, hlt⟩, ?_, ?_, ?_⟩
  · intro k
    have hmem : (mapping.map (fun kv => normalize_name kv.2.title)).get
        ⟨k.val, hlen.symm ▸ k.isLt⟩ ∈ mapping.map (fun kv => normalize_name kv.2.title) :=
      List.get_mem _ _ _
    have hm := hmax _ hmem
    rw [hsci] at hm
    rw [← hsck k.val k.isLt]
    exact hm
  · intro k hk
    have hf := hfst ⟨k.val, hlen.symm ▸ k.isLt⟩ hk
    rw [hsci] at hf
    rw [← hsck k.val k.isLt]
    exact hf
  · by_cases h85 : 85 ≤ resScore q mapping ⟨i'.val, hlt⟩
    · refine Or.inl ⟨h85, ?_⟩
      rw [get_cik_eq, hext]
      show (if 85 ≤ tokenSortScore (normalize_name q)
          ((mapping.map (fun kv => normalize_name kv.2.title)).get i') then _ else _) = _
      rw [hsci, if_pos h85]
    · refine Or.inr ⟨lt_of_not_le h85, ?_⟩
      rw [get_cik_eq, hext]
      show (if 85 ≤ tokenSortScore (normalize_name q)
          ((mapping.map (fun kv => normalize_name kv.2.title)).get i') then _ else _) = _
      rw [hsci, if_neg h85]

/-- Under the SEC key shape, `mapping[str(key)]` with `key` the index of
the best choice retrieves exactly the entry at that index (key uniqueness
of a real dict makes the first match the only match). -/
theorem find?_key_canon (mapping : Registry) (hck : canonKeys mapping)
    (hnd : (mapping.map Prod.fst).Nodup) (i : Fin mapping.length) :
    mapping.find? (fun kv => kv.1 == toString i.val) = some (mapping.get i) := by
  classical
  have hkeyE : ∀ (j : Nat) (hj : j < mapping.length), (mapping.get ⟨j, hj⟩).1 = toString j := by
    intro j hj
    have h1 : (mapping.map Prod.fst)[j]? =
        ((List.range mapping.length).map (fun i => toString i))[j]? := by
      rw [hck]
    rw [List.getElem?_map, List.getElem?_map] at h1
    rw [List.getElem?_eq_getElem hj,
      List.getElem?_eq_getElem (by simp only [List.length_range]; exact hj)] at h1
    simp only [Option.map_some'] at h1
    have h3 := Option.some.inj h1
    rw [List.getElem_range] at h3
    exact h3
  apply find?_eq_some_of_first
  · rw [hkeyE i.val i.isLt]
    exact beq_self_eq_true _
  · intro j hj
    rw [hkeyE j.val j.isLt]
    by_cases hc : toString j.val = toString i.val
    · exfalso
      have hjk : (mapping.map Prod.fst).get
            ⟨j.val, by simp only [List.length_map]; exact j.isLt⟩ =
          (mapping.map Prod.fst).get ⟨i.val, by simp only [List.length_map]; exact i.isLt⟩ := by
        rw [List.get_eq_getElem, List.get_eq_getElem]
        simp only [List.getElem_map]
        rw [show mapping[j.val] = mapping.get j from rfl, show mapping[i.val] = mapping.get i from rfl]
        rw [show (mapping.get j).1 = toString j.val from hkeyE j.val j.isLt,
            show (mapping.get i).1 = toString i.val from hkeyE i.val i.isLt]
        exact hc
      have hfin := (List.Nodup.get_inj_iff hnd).mp hjk
      have hji : j.val = i.val := by simpa using hfin
      omega
    · simpa using hc

/-! ## Concrete registries and payloads used by witnesses and
counterexamples -/

/-- The spec's §8 example registry, keyed like the SEC ticker file. -/
def mapping01 : Registry :=
  [("0", Entry.mk "Apple Inc" 320193), ("1", Entry.mk "Microsoft Corporation" 789019)]

/-- A one-entry registry whose key is not the decimal index string. -/
def mappingBad : Registry := [("a", Entry.mk "apple" 7)]

/-- Claim C1 (amended): for every query and every non-empty registry whose
keys are the decimal strings of the iteration positions (pairwise
distinct, as in the SEC ticker file), if some entry's normalized-title
similarity against the normalized query reaches the hard threshold 85,
`get_cik` returns the zero-padded canonical identifier of the
maximum-scoring candidate, ties broken in favour of the first candidate
in registry iteration order.  (The key-shape precondition is forced by
the counterexample: the source looks the winner up by `mapping[str(key)]`
where `key` is a list index.) -/
theorem C1_threshold_returns_first_max (q : String) (mapping : Registry)
    (hck : canonKeys mapping) (hnd : (mapping.map Prod.fst).Nodup)
    (h85 : ∃ i : Fin mapping.length, 85 ≤ resScore q mapping i) :
    ∃ i : Fin mapping.length,
      get_cik q mapping = RRes.found (zfill10 ((mapping.get i).2.cik_str)) ∧
      (∀ k : Fin mapping.length, resScore q mapping k ≤ resScore q mapping i) ∧
      (∀ k : Fin mapping.length, k.val < i.val →
        resScore q mapping k < resScore q mapping i) := by
  obtain ⟨i0, h85i⟩ := h85
  have hne : mapping ≠ [] := by
    intro hcon
    subst hcon
    exact absurd i0.isLt (by simp)
  obtain ⟨i, hmax, hfst, hbr⟩ := get_cik_cases q mapping hne
  rcases hbr with ⟨_, heq⟩ | ⟨hlt, _⟩
  · refine ⟨i, ?_, hmax, hfst⟩
    rw [heq, find?_key_canon mapping hck hnd i]
  · have hcon : (85 : ℚ) < 85 := lt_of_le_of_lt (le_trans h85i (hmax i0)) hlt
    exact absurd hcon (lt_irrefl _)

/-- Witness for C1: `"Microsoft Corp"` against the spec's example registry
resolves through the fuzzy branch to Microsoft's identifier. -/
theorem C1_threshold_returns_first_max_witness :
    ∃ i : Fin mapping01.length,
      get_cik "Microsoft Corp" mapping01 =
        RRes.found (zfill10 ((mapping01.get i).2.cik_str)) ∧
      (∀ k : Fin mapping01.length,
        resScore "Microsoft Corp" mapping01 k ≤ resScore "Microsoft Corp" mapping01 i) ∧
      (∀ k : Fin mapping01.length, k.val < i.val →
        resScore "Microsoft Corp" mapping01 k < resScore "Microsoft Corp" mapping01 i) :=
  C1_threshold_returns_first_max "Microsoft Corp" mapping01 (by decide) (by decide)
    ⟨⟨1, by decide⟩, by decide⟩

/-- Counterexample to C1 as stated: on a registry whose key is not the
decimal index string, the maximum score clears the threshold but the
`mapping[str(key)]` lookup raises `KeyError`, so no identifier is
returned. -/
theorem C1_as_stated_counterexample :
    (∃ i : Fin mappingBad.length, 85 ≤ resScore "apple" mappingBad i) ∧
    get_cik "apple" mappingBad = RRes.crash := by
  constructor
  · exact ⟨⟨0, by decide⟩, by decide⟩
  · decide

/-- Claim C2 (confirmed): when no normalized title reaches score 85 but
some normalized title contains the normalized query as a substring, the
fallback loop returns the zero-padded identifier of the first such entry
in registry iteration order. -/
theorem C2_substring_fallback (q : String) (mapping : Registry)
    (hlow : ∀ k : Fin mapping.length, resScore q mapping k < 85)
    (hsub : ∃ k : Fin mapping.length, subMatchAt q mapping k = true) :
    ∃ i : Fin mapping.length,
      get_cik q mapping = RRes.found (zfill10 ((mapping.get i).2.cik_str)) ∧
      subMatchAt q mapping i = true ∧
      (∀ j : Fin mapping.length, j.val < i.val → subMatchAt q mapping j = false) := by
  obtain ⟨k0, hk0⟩ := hsub
  have hne : mapping ≠ [] := by
    intro hcon
    subst hcon
    exact absurd k0.isLt (by simp)
  obtain ⟨i, hmax, hfst, hbr⟩ := get_cik_cases q mapping hne
  rcases hbr with ⟨hge, _⟩ | ⟨_, heq⟩
  · exact absurd hge (not_le.mpr (hlow i))
  · cases hf : mapping.find? (fun kv =>
        isSubOf (normalize_name q).toList (normalize_name kv.2.title).toList) with
    | none =>
        exfalso
        have hall := List.find?_eq_none.mp hf
        exact absurd hk0 (by simpa using hall (mapping.get k0) (List.get_mem _ _ _))
    | some kv =>
        obtain ⟨i2, hget2, hpkv, hfst2⟩ := find?_first_spec _ mapping kv hf
        refine ⟨i2, ?_, ?_, ?_⟩
        · rw [heq, hf]
          show RRes.found (zfill10 kv.2.cik_str) = _
          rw [← hget2]
        · unfold subMatchAt
          rw [hget2]
          exact hpkv
        · intro j hj
          exact hfst2 j hj

/-- Witness for C2: `"App"` against the example registry scores below 85
everywhere (75 against `apple`) but `"app"` is a substring of `"apple"`,
so the fallback returns Apple's identifier. -/
theorem C2_substring_fallback_witness :
    ∃ i : Fin mapping01.length,
      get_cik "App" mapping01 = RRes.found (zfill10 ((mapping01.get i).2.cik_str)) ∧
      subMatchAt "App" mapping01 i = true ∧
      (∀ j : Fin mapping01.length, j.val < i.val → subMatchAt "App" mapping01 j = false) :=
  C2_substring_fallback "App" mapping01 (by decide) ⟨⟨0, by decide⟩, by decide⟩

/-- Claim C3 (confirmed): when no normalized title reaches 85 and none
contains the normalized query, `get_cik` raises the not-found error and
the score it carries is the true maximum similarity over all registry
entries. -/
theorem C3_notfound_carries_max (q : String) (mapping : Registry)
    (hne : mapping ≠ [])
    (hlow : ∀ k : Fin mapping.length, resScore q mapping k < 85)
    (hnos : ∀ k : Fin mapping.length, subMatchAt q mapping k = false) :
    ∃ b : ℚ, get_cik q mapping = RRes.notFound b ∧
      (∃ i : Fin mapping.length, b = resScore q mapping i) ∧
      (∀ k : Fin mapping.length, resScore q mapping k ≤ b) := by
  obtain ⟨i, hmax, hfst, hbr⟩ := get_cik_cases q mapping hne
  rcases hbr with ⟨hge, _⟩ | ⟨_, heq⟩
  · exact absurd hge (not_le.mpr (hlow i))
  · have hf : mapping.find? (fun kv =>
        isSubOf (normalize_name q).toList (normalize_name kv.2.title).toList) = none :=
      find?_eq_none_of_all _ mapping (fun k => hnos k)
    refine ⟨resScore q mapping i, ?_, ⟨i, rfl⟩, hmax⟩
    rw [heq, hf]

/-- Witness for C3: `"qq"` matches nothing in the example registry
(both scores are 0, no substring containment), so resolution fails
carrying best score 0. -/
theorem C3_notfound_carries_max_witness :
    ∃ b : ℚ, get_cik "qq" mapping01 = RRes.notFound b ∧
      (∃ i : Fin mapping01.length, b = resScore "qq" mapping01 i) ∧
      (∀ k : Fin mapping01.length, resScore "qq" mapping01 k ≤ b) :=
  C3_notfound_carries_max "qq" mapping01 (by decide) (by decide) (by decide)

/-- Claim C10 (amended): on the empty registry `get_cik` crashes
(unpacking `extractOne`'s `None` raises `TypeError`), and on a non-empty
registry with the SEC key shape every call returns an identifier or the
not-found error — never a crash.  (The key-shape precondition is forced
by the counterexample below.) -/
theorem C10_crash_characterisation :
    (∀ q : String, get_cik q ([] : Registry) = RRes.crash) ∧
    (∀ (q : String) (mapping : Registry), canonKeys mapping →
      (mapping.map Prod.fst).Nodup → mapping ≠ [] →
      get_cik q mapping ≠ RRes.crash) := by
  constructor
  · intro q
    rfl
  · intro q mapping hck hnd hne
    obtain ⟨i, _, _, hbr⟩ := get_cik_cases q mapping hne
    rcases hbr with ⟨_, heq⟩ | ⟨_, heq⟩
    · rw [heq, find?_key_canon mapping hck hnd i]
      simp
    · cases hf : mapping.find? (fun kv =>
          isSubOf (normalize_name q).toList (normalize_name kv.2.title).toList) with
      | some kv =>
          rw [heq, hf]
          simp
      | none =>
          rw [heq, hf]
          simp

/-- Witness for C10: the empty registry crashes; the example registry
(canonically keyed) never does. -/
theorem C10_crash_characterisation_witness :
    get_cik "zzz" ([] : Registry) = RRes.crash ∧
    get_cik "zzz" mapping01 ≠ RRes.crash :=
  ⟨C10_crash_characterisation.1 "zzz",
   C10_crash_characterisation.2 "zzz" mapping01 (by decide) (by decide) (by decide)⟩

/-- Counterexample to C10 as stated: a non-empty registry still crashes
when its keys are not the decimal index strings — `get_cik` neither
returns nor raises the not-found error there. -/
theorem C10_as_stated_counterexample :
    mappingBad ≠ [] ∧ get_cik "apple" mappingBad = RRes.crash := by
  constructor
  · simp [mappingBad]
  · decide

/-- Claim C4 (confirmed): `normalize_name` is total (it is a Lean
function) and equals the spec's four-step reference pipeline — (a)
whole-word case-insensitive removal of the nine corporate-suffix tokens,
(b) lowercase, (c) deletion of every character outside `[a-z0-9 ]`, (d)
collapse of whitespace runs to single spaces plus trimming — and the
empty string normalizes to the empty string. -/
theorem C4_normalize_matches_pipeline :
    (∀ s : String, normalize_name s = specNormalize s) ∧ normalize_name "" = "" := by
  constructor
  · intro s
    show String.mk
        (pyJoin (pySplit (((removeToks s.toList).map lowerChar).filter allowedChar))) =
      String.mk
        (trimWs (collapseWs (((removeToks s.toList).map lowerChar).filter allowedChar)))
    rw [(pyJoin_pySplit_eq_canon _).1, trimWs_collapse_eq_canon]
  · rfl

/-- Counterexample to C5 as stated: `normalize_name "i!nc" = "inc"`
(punctuation stripping manufactures the suffix token `inc` after suffix
removal already ran), and normalizing again erases it. -/
theorem C5_as_stated_counterexample :
    normalize_name (normalize_name "i!nc") ≠ normalize_name "i!nc" := by
  decide

/-- Claim C5 (amended): normalization is idempotent at every input whose
normalized form is left unchanged by suffix-token removal — equivalently,
whose normalized form contains no corporate-suffix token as a whole word.
(Unrestricted idempotence is refuted by the `"i!nc"` counterexample.) -/
theorem C5_idempotent_when_no_token (s : String)
    (h : removeToks (normalize_name s).toList = (normalize_name s).toList) :
    normalize_name (normalize_name s) = normalize_name s := by
  have hb : (normalize_name s).toList =
      canon (((removeToks s.toList).map lowerChar).filter allowedChar) := by
    show pyJoin (pySplit (((removeToks s.toList).map lowerChar).filter allowedChar)) = _
    exact (pyJoin_pySplit_eq_canon _).1
  have hallow : ∀ x ∈ (normalize_name s).toList, allowedChar x = true := by
    intro x hx
    rw [hb] at hx
    rcases (canon_mem _).1 x hx with hm | rfl
    · exact List.of_mem_filter hm
    · rfl
  show String.mk
      (pyJoin (pySplit (((removeToks (normalize_name s).toList).map lowerChar).filter
        allowedChar))) = normalize_name s
  rw [h, map_id_of_mem lowerChar _ (fun x hx => lowerChar_fix (hallow x hx)),
    List.filter_eq_self.mpr hallow, hb, (pyJoin_pySplit_eq_canon _).1, (canon_canon _).1,
    ← hb]
  rfl

/-- Witness for C5: `"Banana Split"` normalizes to `"banana split"`,
which contains no suffix token, and normalization fixes it. -/
theorem C5_idempotent_when_no_token_witness :
    removeToks (normalize_name "Banana Split").toList = (normalize_name "Banana Split").toList ∧
    normalize_name (normalize_name "Banana Split") = normalize_name "Banana Split" :=
  ⟨by decide, C5_idempotent_when_no_token "Banana Split" (by decide)⟩

/-- Counterexample to C6 as stated: the two sides of the spec's example
normalize differently — `"Adobe Systems Incorporated"` keeps the word
`systems` that `"ADOBE INC"` never had. -/
theorem C6_as_stated_counterexample :
    normalize_name "Adobe Systems Incorporated" ≠ normalize_name "ADOBE INC" := by
  decide

/-- Claim C6 (amended): normalization is case- and suffix-insensitive in
the sense the source docstring intends (`≈`, not `=`):
`"Adobe Systems Incorporated"` normalizes to `"adobe systems"` and
`"ADOBE INC"` to `"adobe"` — different strings — while the nearby
equality `normalize_name "Adobe Incorporated" = normalize_name "ADOBE INC"`
does hold. -/
theorem C6_case_suffix_example :
    normalize_name "Adobe Systems Incorporated" = "adobe systems" ∧
    normalize_name "ADOBE INC" = "adobe" ∧
    normalize_name "Adobe Incorporated" = normalize_name "ADOBE INC" := by
  refine ⟨by decide, by decide, by decide⟩

/-- A one-entry registry with the SEC key shape, for the C7 divergence. -/
def mappingA : Registry := [("0", Entry.mk "Apple Inc" 320193)]

/-- Counterexample to C7 as stated: on the query `"Apple"` against a
registry containing `"Apple Inc"`, the bootstrap resolver succeeds
(normalized score 100 ≥ 85) while the daily-update resolver fails (no
exact raw-title match; raw-title token-sort score 1000/14 < 85; no
substring fallback). -/
theorem C7_as_stated_counterexample :
    get_cik "Apple" mappingA = RRes.found "0000320193" ∧
    get_cik_daily "Apple" mappingA = RRes.notFound (mkRat 1000 14) := by
  constructor
  · decide
  · decide

/-- Claim C7 (amended): the bootstrap and daily-update scripts do not
implement one shared resolution contract — the daily-update `get_cik`
matches exact raw titles, then fuzzy-matches raw (unnormalized) titles,
and has no substring fallback — so there are query/registry pairs where
the bootstrap resolver returns an identifier and the daily-update
resolver raises its not-found error. -/
theorem C7_routines_differ :
    ∃ (q : String) (mapping : Registry) (cik : String) (b : ℚ),
      get_cik q mapping = RRes.found cik ∧
      get_cik_daily q mapping = RRes.notFound b :=
  ⟨"Apple", mappingA, "0000320193", mkRat 1000 14, by decide, by decide⟩

/-- Every observation produced by the bootstrap `pick` closure respects
the cutoff. -/
theorem pickBoot_year_ge (facts : Facts) (cutoff : Int) (name : String) :
    ∀ o ∈ pickBoot facts cutoff name, cutoff ≤ (o.year : Int) := by
  intro o ho
  unfold pickBoot at ho
  obtain ⟨i, hi, rfl⟩ := List.mem_map.mp ho
  have hfi := List.of_mem_filter hi
  simpa using hfi

/-- A facts payload whose single Revenue observation is dated 1990. -/
def facts1 : Facts :=
  [("Revenues", FactConcept.mk [("USD", [FactItem.mk "1990-12-31" 5])])]

/-- Counterexample to C8 as stated: the daily-update `latest_years`
applies no year window — the 1990 observation appears in its Revenue
dict even though 1990 is outside the trailing 5-year window that the
bootstrap `extract_facts` (here at `todayYear = 2025`) enforces. -/
theorem C8_as_stated_counterexample :
    lookupA (latest_years facts1) "Revenue" = some [(1990, 5)] ∧
    lookupA (extract_facts 2025 facts1) "Revenue" = some [] ∧
    (1990 : Int) < 2025 - 5 := by
  refine ⟨by decide, by decide, by decide⟩

/-- Claim C8 (amended): both extraction routines return exactly the six
metric keys `Revenue, NetIncome, OperatingCashFlow, Assets, Liabilities,
Equity`; the bootstrap `extract_facts` keeps only observations with year
at least `todayYear - 5`, while the daily-update `latest_years` applies
no year window at all. -/
theorem C8_six_metrics_window :
    (∀ (ty : Int) (facts : Facts),
      (extract_facts ty facts).map Prod.fst =
        ["Revenue", "NetIncome", "OperatingCashFlow", "Assets", "Liabilities", "Equity"]) ∧
    (∀ (ty : Int) (facts : Facts) (m : String) (l : List Obs) (o : Obs),
      (m, l) ∈ extract_facts ty facts → o ∈ l → ty - 5 ≤ (o.year : Int)) ∧
    (∀ facts : Facts,
      (latest_years facts).map Prod.fst =
        ["Revenue", "NetIncome", "OperatingCashFlow", "Assets", "Liabilities", "Equity"]) := by
  refine ⟨fun ty facts => rfl, ?_, fun facts => rfl⟩
  intro ty facts m l o hmem ho
  simp only [extract_facts, List.mem_cons, List.mem_singleton, Prod.mk.injEq,
    List.not_mem_nil, or_false] at hmem
  rcases hmem with ⟨_, rfl⟩ | ⟨_, rfl⟩ | ⟨_, rfl⟩ | ⟨_, rfl⟩ | ⟨_, rfl⟩ | ⟨_, rfl⟩ <;>
    exact pickBoot_year_ge facts (ty - 5) _ o ho

/-- A facts payload with one in-window Revenue observation. -/
def facts3 : Facts :=
  [("Revenues", FactConcept.mk [("USD", [FactItem.mk "2024-12-31" 10])])]

/-- Witness for C8: at `todayYear = 2025` the 2024 Revenue observation
passes the window test, and the key list is the six metrics. -/
theorem C8_six_metrics_window_witness :
    (2025 : Int) - 5 ≤ ((2024 : Nat) : Int) ∧
    (extract_facts 2025 facts3).map Prod.fst =
      ["Revenue", "NetIncome", "OperatingCashFlow", "Assets", "Liabilities", "Equity"] :=
  ⟨C8_six_metrics_window.2.1 2025 facts3 "Revenue" [Obs.mk 2024 10] (Obs.mk 2024 10)
      (by decide) (by decide),
   C8_six_metrics_window.1 2025 facts3⟩

/-- Claim C9 (confirmed): the daily-update merge leaves every stored
observation in place and unmodified, and appends a fetched `(year, val)`
observation to a metric's list exactly when that year is absent from the
stored list — `mergedAt` spells this out: the merged entry is the stored
list followed by the fetched pairs whose years are new, in fetched order
(a metric that was never stored is created only when it receives
observations).  The fetched dict has pairwise-distinct metric keys, as
`latest_years` always produces. -/
theorem C9_merge_appends_only (fin : FinMap) (updated : List (String × List (Nat × Int)))
    (hnd : (updated.map Prod.fst).Nodup) (m : String) :
    lookupA (mergeFinancials fin updated) m =
      (match lookupA updated m with
       | none => lookupA fin m
       | some d => mergedAt (lookupA fin m) d) :=
  mergeFinancials_lookup updated fin m hnd

/-- Stored financials and a fetched update for the C9 witness: the stored
2020 Revenue value survives (the fetched value 9 for 2020 is ignored) and
the new 2021 observation is appended. -/
def fin0 : FinMap := [("Revenue", [Obs.mk 2020 1])]

/-- The fetched year dicts for the C9 witness. -/
def upd0 : List (String × List (Nat × Int)) :=
  [("Revenue", [(2020, 9), (2021, 7)]), ("Assets", [(2021, 3)])]

/-- Witness for C9 at a concrete record: stored kept, new year appended,
conflicting fetched value for a stored year ignored. -/
theorem C9_merge_appends_only_witness :
    lookupA (mergeFinancials fin0 upd0) "Revenue" = some [Obs.mk 2020 1, Obs.mk 2021 7] := by
  have h := C9_merge_appends_only fin0 upd0 (by decide) "Revenue"
  rw [h]
  decide
